import Mathlib

/-!
Verification of the FinSight.API monthly-report aggregation and the
transaction CRUD routes.

The development shallowly embeds the MongoDB aggregation pipeline of
`GET /transactions` (routes/transaction.js) and the `POST` / `PUT`
handlers of the same router.  The repository carries two revisions of
`routes/transaction.js`:

* the revision embedded here as `FinSight.monthlyReport`
  (src/unnamed/part_002, lines 19-149) uses
  `$unwind { path: "$category", preserveNullAndEmptyArrays: true }`
  followed by an `$ifNull` fallback that substitutes the
  "Uncategorized" placeholder category; this is the pipeline the
  specification's Category Resolver section describes;
* the revision embedded as `FinSight.monthlyReportPlain`
  (src/backend/src/routes/transaction.js, lines 14-128) uses a plain
  `$unwind: "$category"`, which drops a transaction whose category
  lookup comes back empty.

Both pipelines share the `$match` on `userId`, the `$lookup` of
categories by `_id`, the `$addFields date: {$toDate: "$date"}`, the
`$sort {date: -1, _id: -1}`, the `$group` by year/month with
conditional sums, the month-label projection and the final
`$sort {monthDate: -1}` / `$project {monthDate: 0}` stages, so those
stages are embedded once and reused.

Modelling conventions:

* Mongo ObjectIds are modelled as `Nat` (they are totally ordered and
  unique per collection); the `_id` tie-break of `$sort` uses this
  order.
* BSON dates are modelled by `Date` (year/month/day); `$toDate` is
  modelled by `toDate` on a stored `DateVal`, which either holds a
  convertible representation (`DateVal.valid`) or an unconvertible
  string (`DateVal.invalid`), in which case the whole aggregation
  fails, exactly as a `$toDate` error aborts the Mongo pipeline.
* amounts are modelled as integers (the claims under study involve
  only sums and differences).
* `$group` output order is unspecified in Mongo; the embedding picks
  first-encounter order of the keys, which is immaterial because the
  pipeline re-sorts the groups by `monthDate` afterwards.
-/

namespace FinSight

/-- A calendar date as produced by `$toDate` and consumed by
`$year`/`$month`/`$dateFromParts`; ordered lexicographically. -/
structure Date where
  year : Int
  month : Nat
  day : Nat
deriving DecidableEq, Repr

/-- A stored `date` field.  `valid d` stands for any stored
representation (BSON date, timestamp or parseable string) that
`$toDate` converts to the calendar date `d`; `invalid s` stands for a
stored string that `$toDate` rejects with an error. -/
inductive DateVal where
  | valid : Date → DateVal
  | invalid : String → DateVal
deriving DecidableEq, Repr

/-- The `$toDate` conversion: a convertible representation yields its
calendar date, an unconvertible one raises (modelled as `none`). -/
def toDate : DateVal → Option Date
  | .valid d => some d
  | .invalid _ => none

/-- A document of the `transactions` collection, with the fields
written by `POST /transactions` (routes/transaction.js). -/
structure Transaction where
  id : Nat
  userId : String
  date : DateVal
  type : String
  amount : Int
  note : String
  categoryId : Option Nat
  createdAt : Nat
  updatedAt : Nat
deriving DecidableEq, Repr

/-- A document of the `categories` collection (routes/category.js);
only the fields the aggregation reads are carried. -/
structure Category where
  id : Nat
  userId : String
  name : String
  icon : Option String
  type : String
deriving DecidableEq, Repr

/-- The enriched `category` sub-document after `$lookup`/`$unwind`/
`$ifNull`: either a joined category or the fallback document
`{_id: null, name: "Uncategorized", type: "$type", icon: null}`. -/
structure EnrichedCat where
  id : Option Nat
  name : String
  type : String
  icon : Option String
deriving DecidableEq, Repr

/-- A pipeline document after the category join. -/
structure EnrichedTxn where
  txn : Transaction
  category : EnrichedCat
deriving DecidableEq, Repr

/-- A pipeline document after `$addFields date: {$toDate: "$date"}`:
the transaction with its enriched category and its converted date. -/
structure DatedTxn where
  txn : Transaction
  category : EnrichedCat
  date : Date
deriving DecidableEq, Repr

/-- The snapshot of the record store the aggregation reads. -/
structure Store where
  transactions : List Transaction
  categories : List Category
deriving DecidableEq, Repr

/-- Stage `$match { userId }`: only the caller's transactions. -/
def ownedTxns (uid : String) (s : Store) : List Transaction :=
  s.transactions.filter (fun t => decide (t.userId = uid))

/-- Stage `$lookup { from: "categories", localField: "categoryId",
foreignField: "_id", as: "category" }`.  The join condition is only
`_id` equality; it does not mention the owner. -/
def lookupCats (cats : List Category) (t : Transaction) : List Category :=
  cats.filter (fun c => decide (some c.id = t.categoryId))

/-- The `$ifNull` fallback document: `{_id: null, name:
"Uncategorized", type: "$type", icon: null}` (`"$type"` evaluates to
the transaction's own `type`). -/
def placeholderCat (t : Transaction) : EnrichedCat :=
  { id := none, name := "Uncategorized", type := t.type, icon := none }

/-- The joined category as embedded in the document by `$unwind`. -/
def catView (c : Category) : EnrichedCat :=
  { id := some c.id, name := c.name, type := c.type, icon := c.icon }

/-- Stages 2-4 of the part_002 revision: `$lookup`, `$unwind` with
`preserveNullAndEmptyArrays: true`, then the `$ifNull` fallback.  An
empty lookup keeps the document and substitutes the placeholder; a
non-empty lookup emits one document per matched category. -/
def enrichPreserve (cats : List Category) (t : Transaction) : List EnrichedTxn :=
  match lookupCats cats t with
  | [] => [⟨t, placeholderCat t⟩]
  | cs => cs.map (fun c => ⟨t, catView c⟩)

/-- Stages 2-3 of the src/backend revision: `$lookup` then a plain
`$unwind: "$category"`, which drops the document when the lookup is
empty and has no fallback. -/
def enrichPlain (cats : List Category) (t : Transaction) : List EnrichedTxn :=
  (lookupCats cats t).map (fun c => ⟨t, catView c⟩)

/-- The single enriched document `enrichPreserve` produces for a
transaction when the `categories` collection has unique `_id`s (which
MongoDB guarantees): the joined category when the reference resolves,
the placeholder otherwise. -/
def enrichOne (cats : List Category) (t : Transaction) : EnrichedTxn :=
  match lookupCats cats t with
  | [] => ⟨t, placeholderCat t⟩
  | c :: _ => ⟨t, catView c⟩

/-- Stage `$addFields date: {$toDate: "$date"}` on one document. -/
def dateTxn (e : EnrichedTxn) : Option DatedTxn :=
  (toDate e.txn.date).map (fun d => ⟨e.txn, e.category, d⟩)

/-- Effectful map over a list in the `Option` monad: the embedding of
a per-document pipeline stage whose expression can error, aborting the
whole aggregation. -/
def mapO (f : α → Option β) : List α → Option (List β)
  | [] => some []
  | a :: as =>
    match f a, mapO f as with
    | some b, some bs => some (b :: bs)
    | _, _ => none

/-- Strict chronological order on dates (year, then month, then day). -/
def dateLtB (a b : Date) : Bool :=
  if a.year = b.year then
    if a.month = b.month then decide (a.day < b.day)
    else decide (a.month < b.month)
  else decide (a.year < b.year)

/-- Non-strict chronological order on dates. -/
def dateLeB (a b : Date) : Bool :=
  dateLtB a b || decide (a = b)

/-- The document order of stage `$sort { date: -1, _id: -1 }`: `a`
comes no later than `b` when its date is later, or the dates are equal
and its `_id` is no smaller. -/
def txnLeB (a b : DatedTxn) : Bool :=
  if a.date = b.date then decide (b.txn.id ≤ a.txn.id)
  else dateLtB b.date a.date

/-- `txnLeB` as a relation, for `List.insertionSort`. -/
def TxnLe (a b : DatedTxn) : Prop := txnLeB a b = true

instance : DecidableRel TxnLe := fun a b => inferInstanceAs (Decidable (_ = true))

/-- Strict version of the stage-6 document order: later date, or equal
date and larger `_id`. -/
def TxnLt (a b : DatedTxn) : Prop :=
  dateLtB b.date a.date = true ∨ (a.date = b.date ∧ b.txn.id < a.txn.id)

/-- The grouping key of stage `$group`: `{year: {$year: "$date"},
month: {$month: "$date"}}`. -/
def monthKey (d : DatedTxn) : Int × Nat := (d.date.year, d.date.month)

/-- First-occurrence deduplication: the distinct group keys in the
order the grouping stage first meets them (Mongo leaves the group
output order unspecified; it is re-sorted below). -/
def dedupFirst : List (Int × Nat) → List (Int × Nat)
  | [] => []
  | k :: ks => k :: (dedupFirst ks).filter (fun k2 => decide (k2 ≠ k))

/-- One group of stage 7: `transactions: {$push: "$$ROOT"}` in
document order, and the two conditional sums
`$sum {$cond: [{$eq: ["$type", kind]}, "$amount", 0]}`. -/
structure Bucket where
  year : Int
  month : Nat
  transactions : List DatedTxn
  totalIncome : Int
  totalExpense : Int
deriving DecidableEq, Repr

/-- The group of key `k` over the document stream `l`. -/
def mkBucket (l : List DatedTxn) (k : Int × Nat) : Bucket :=
  let ts := l.filter (fun d => decide (monthKey d = k))
  { year := k.1
    month := k.2
    transactions := ts
    totalIncome := (ts.map (fun d => if d.txn.type = "income" then d.txn.amount else 0)).sum
    totalExpense := (ts.map (fun d => if d.txn.type = "expense" then d.txn.amount else 0)).sum }

/-- Stage `$group { _id: {year, month}, transactions: {$push},
totalIncome, totalExpense }`: one bucket per distinct key of the
incoming stream, members and sums taken in stream order. -/
def groupByMonth (l : List DatedTxn) : List Bucket :=
  (dedupFirst (l.map monthKey)).map (mkBucket l)

/-- The fixed-locale month abbreviation of `$dateToString`'s `%b`. -/
def monthAbbrev : Nat → String
  | 1 => "Jan" | 2 => "Feb" | 3 => "Mar" | 4 => "Apr"
  | 5 => "May" | 6 => "Jun" | 7 => "Jul" | 8 => "Aug"
  | 9 => "Sep" | 10 => "Oct" | 11 => "Nov" | 12 => "Dec"
  | _ => ""

/-- The zero-padded 4-digit year of `$dateToString`'s `%Y`. -/
def year4 (y : Int) : String :=
  let s := toString y.toNat
  String.mk (List.replicate (4 - s.length) '0') ++ s

/-- The `%b %Y` format of stage 9's `$dateToString` (e.g. "Dec 2023"). -/
def monthLabel (d : Date) : String :=
  monthAbbrev d.month ++ " " ++ year4 d.year

/-- A month summary after stages 8-9 (`$addFields monthDate` and the
label/net projection) but before the final `$project {monthDate: 0}`:
it still carries the internal sort key `monthDate`. -/
structure PreSummary where
  month : String
  transactions : List DatedTxn
  totalIncome : Int
  totalExpense : Int
  net : Int
  monthDate : Date
deriving DecidableEq, Repr

/-- Stages 8-9 on one group: `monthDate: {$dateFromParts: {year,
month, day: 1}}`, the `%b %Y` label, and `net: {$subtract:
["$totalIncome", "$totalExpense"]}`. -/
def toPre (b : Bucket) : PreSummary :=
  let md : Date := ⟨b.year, b.month, 1⟩
  { month := monthLabel md
    transactions := b.transactions
    totalIncome := b.totalIncome
    totalExpense := b.totalExpense
    net := b.totalIncome - b.totalExpense
    monthDate := md }

/-- The order of stage 10, `$sort { monthDate: -1 }`. -/
def PreLe (p q : PreSummary) : Prop := dateLeB q.monthDate p.monthDate = true

instance : DecidableRel PreLe := fun p q => inferInstanceAs (Decidable (_ = true))

/-- An emitted month summary, after the final `$project {monthDate:
0}` removed the internal sort key. -/
structure MonthSummary where
  month : String
  transactions : List DatedTxn
  totalIncome : Int
  totalExpense : Int
  net : Int
deriving DecidableEq, Repr

/-- The final `$project { monthDate: 0 }`. -/
def dropMonthDate (p : PreSummary) : MonthSummary :=
  { month := p.month
    transactions := p.transactions
    totalIncome := p.totalIncome
    totalExpense := p.totalExpense
    net := p.net }

/-- Stages 5-10 (toDate, sort, group, label, month sort) shared by
both revisions, stopping before the final projection so that the
`monthDate` sort key is still visible. -/
def reportKeyed (l : List EnrichedTxn) : Option (List PreSummary) :=
  (mapO dateTxn l).map (fun dated =>
    List.insertionSort PreLe ((groupByMonth (List.insertionSort TxnLe dated)).map toPre))

/-- Stages 5-11 shared by both revisions: `reportKeyed` followed by
the final `$project { monthDate: 0 }`. -/
def reportShared (l : List EnrichedTxn) : Option (List MonthSummary) :=
  (reportKeyed l).map (List.map dropMonthDate)

/-- The aggregation of `GET /transactions` in the part_002 revision
(`$unwind` with `preserveNullAndEmptyArrays` and the `$ifNull`
fallback): `none` models the route answering 500 after the pipeline
errors, `some` the 200 response body. -/
def monthlyReport (uid : String) (s : Store) : Option (List MonthSummary) :=
  reportShared ((ownedTxns uid s).flatMap (enrichPreserve s.categories))

/-- `monthlyReport` stopped before the final projection. -/
def monthlyReportKeyed (uid : String) (s : Store) : Option (List PreSummary) :=
  reportKeyed ((ownedTxns uid s).flatMap (enrichPreserve s.categories))

/-- The aggregation of `GET /transactions` in the src/backend revision
(plain `$unwind: "$category"`, no fallback). -/
def monthlyReportPlain (uid : String) (s : Store) : Option (List MonthSummary) :=
  reportShared ((ownedTxns uid s).flatMap (enrichPlain s.categories))

/-- The request body of `PUT /transactions/:id`.  `none` models a
field that the handler's conditional spread skips: for `date`, `type`
and `categoryId` a missing or falsy value (`...(date && {date})`), for
`amount` and `note` a missing one (`...(amount !== undefined &&
{amount})`). -/
structure UpdateBody where
  date : Option DateVal
  type : Option String
  amount : Option Int
  note : Option String
  categoryId : Option Nat
deriving DecidableEq, Repr

/-- The `$set` document built by `PUT /transactions/:id`: it updates
`date`, `type`, `amount`, `note`, `categoryId` (each only when the
spread kept it) and always `updatedAt`; it never mentions `userId`,
`_id` or `createdAt`. -/
def applyUpdates (b : UpdateBody) (now : Nat) (t : Transaction) : Transaction :=
  { t with
    date := b.date.getD t.date
    type := b.type.getD t.type
    amount := b.amount.getD t.amount
    note := b.note.getD t.note
    categoryId := match b.categoryId with
      | some c => some c
      | none => t.categoryId
    updatedAt := now }

/-- `updateOne`: rewrite the first document matching the filter,
reporting whether one matched (`matchedCount` 1 or 0). -/
def updateFirst (p : Transaction → Bool) (f : Transaction → Transaction) :
    List Transaction → List Transaction × Bool
  | [] => ([], false)
  | t :: ts =>
    if p t then (f t :: ts, true)
    else
      let r := updateFirst p f ts
      (t :: r.1, r.2)

/-- The `PUT /transactions/:id` handler after authentication: an
`updateOne` with filter `{_id: id, userId}` and the `$set` of
`applyUpdates`; `matchedCount = 0` answers 404, otherwise 200. -/
def putTransaction (uid : String) (tid : Nat) (b : UpdateBody) (now : Nat)
    (s : Store) : Store × Nat :=
  let r := updateFirst (fun t => decide (t.id = tid) && decide (t.userId = uid))
    (applyUpdates b now) s.transactions
  if r.2 then ({ s with transactions := r.1 }, 200) else (s, 404)

/-- The request body of `POST /transactions`.  `none` models a field
that is missing or falsy in JavaScript (empty-string `date`, `type` or
`categoryId`); a present numeric `amount` is carried as `some`, with
its JavaScript falsiness (`0`) checked by the handler itself. -/
structure PostBody where
  date : Option DateVal
  type : Option String
  amount : Option Int
  note : Option String
  categoryId : Option Nat
deriving DecidableEq, Repr

/-- The `POST /transactions` handler after authentication: the guard
`if (!date || !type || !amount || !categoryId)` answers 400
("Missing required fields"); a falsy `type` (empty string) or a falsy
`amount` (zero) fails the guard exactly like a missing field.
Otherwise the handler inserts the new document, tagged with the
caller's `userId`, and answers 201. -/
def postTransaction (uid : String) (b : PostBody) (now : Nat) (newId : Nat)
    (s : Store) : Store × Nat :=
  match b.date, b.type, b.amount, b.categoryId with
  | some d, some ty, some a, some c =>
    if ty = "" ∨ a = 0 then (s, 400)
    else
      ({ s with
          transactions := s.transactions ++
            [{ id := newId, userId := uid, date := d, type := ty, amount := a
               note := b.note.getD "", categoryId := some c
               createdAt := now, updatedAt := now }] }, 201)
  | _, _, _, _ => (s, 400)

/-! ### Concrete stores used to exercise the claims

`exStore` is the worked example of the specification: three
transactions of owner "A" across December 2023 and January 2024, the
December expense carrying no category reference.  `cxStore` holds a
transaction of owner "A" whose category reference points at a
category owned by "B". -/

/-- Example category "Salary" of owner "A". -/
def exCatA : Category := ⟨10, "A", "Salary", none, "income"⟩

/-- Example category "Toys" of owner "A". -/
def exCatB : Category := ⟨11, "A", "Toys", some "t", "expense"⟩

/-- Example income 1500 on 2023-12-01, category `exCatA`. -/
def exT1 : Transaction := ⟨1, "A", .valid ⟨2023, 12, 1⟩, "income", 1500, "", some 10, 0, 0⟩

/-- Example expense 300 on 2023-12-15, no category reference. -/
def exT2 : Transaction := ⟨2, "A", .valid ⟨2023, 12, 15⟩, "expense", 300, "", none, 0, 0⟩

/-- Example expense 50 on 2024-01-02, category `exCatB`. -/
def exT3 : Transaction := ⟨3, "A", .valid ⟨2024, 1, 2⟩, "expense", 50, "", some 11, 0, 0⟩

/-- The specification's worked-example snapshot. -/
def exStore : Store := ⟨[exT1, exT2, exT3], [exCatA, exCatB]⟩

/-- The report the pipeline produces on `exStore`. -/
def exReport : List MonthSummary := (monthlyReport "A" exStore).getD []

/-- The keyed report (before the final projection) on `exStore`. -/
def exPres : List PreSummary := (monthlyReportKeyed "A" exStore).getD []

/-- A fallback month summary for `List.getD`. -/
def msDefault : MonthSummary := ⟨"", [], 0, 0, 0⟩

/-- A fallback pre-summary for `List.getD`. -/
def preDefault : PreSummary := ⟨"", [], 0, 0, 0, ⟨0, 1, 1⟩⟩

/-- A category of owner "B", referenced across owners in `cxStore`. -/
def cxCat : Category := ⟨21, "B", "Food", none, "expense"⟩

/-- A transaction of owner "A" whose `categoryId` points at `cxCat`,
a category owned by "B". -/
def cxTxn : Transaction := ⟨1, "A", .valid ⟨2023, 5, 2⟩, "expense", 10, "", some 21, 0, 0⟩

/-- The cross-owner-reference snapshot. -/
def cxStore : Store := ⟨[cxTxn], [cxCat]⟩

/-- `exStore` with the transactions and categories permuted. -/
def exStoreP : Store := ⟨[exT3, exT1, exT2], [exCatB, exCatA]⟩

/-- `exStore` with owner "A"'s transactions deleted; owner "B"'s view
of the two snapshots must agree. -/
def exStoreNoA : Store := ⟨[], [exCatA, exCatB]⟩

/-- An update body that only changes the amount. -/
def exBody : UpdateBody := ⟨none, none, some 999, none, none⟩

/-- A fallback pipeline document for `List.getD`. -/
def dtDefault : DatedTxn :=
  ⟨⟨0, "", .invalid "", "", 0, "", none, 0, 0⟩, ⟨none, "", "", none⟩, ⟨0, 1, 1⟩⟩

/-! ### Order lemmas for the two sort stages -/

theorem dateLtB_iff (a b : Date) :
    dateLtB a b = true ↔
      (a.year < b.year ∨ (a.year = b.year ∧
        (a.month < b.month ∨ (a.month = b.month ∧ a.day < b.day)))) := by
  simp only [dateLtB]
  by_cases h1 : a.year = b.year
  · rw [if_pos h1]
    by_cases h2 : a.month = b.month
    · rw [if_pos h2]
      simp only [decide_eq_true_eq]
      omega
    · rw [if_neg h2]
      simp only [decide_eq_true_eq]
      omega
  · rw [if_neg h1]
    simp only [decide_eq_true_eq]
    omega

theorem dateLtB_irrefl (a : Date) : dateLtB a a = false := by
  simp [dateLtB]

theorem dateLtB_asymm {a b : Date} (h1 : dateLtB a b = true) (h2 : dateLtB b a = true) :
    False := by
  rw [dateLtB_iff] at h1 h2
  omega

theorem dateLtB_trans {a b c : Date} (h1 : dateLtB a b = true) (h2 : dateLtB b c = true) :
    dateLtB a c = true := by
  rw [dateLtB_iff] at h1 h2 ⊢
  omega

theorem dateLtB_connex {a b : Date} (h1 : dateLtB a b = false) (h2 : dateLtB b a = false) :
    a = b := by
  have h1' : ¬dateLtB a b = true := by simp [h1]
  have h2' : ¬dateLtB b a = true := by simp [h2]
  rw [dateLtB_iff] at h1' h2'
  cases a
  cases b
  simp_all only [Date.mk.injEq]
  omega

instance : IsTotal DatedTxn TxnLe := by
  constructor
  intro a b
  simp only [TxnLe, txnLeB]
  by_cases h : a.date = b.date
  · rw [if_pos h, if_pos h.symm]
    simp only [decide_eq_true_eq]
    omega
  · rw [if_neg h, if_neg (Ne.symm h)]
    rcases hab : dateLtB b.date a.date with _ | _
    · rcases hba : dateLtB a.date b.date with _ | _
      · exact absurd (dateLtB_connex hba hab) h
      · right; simp
    · left; simp

instance : IsTrans DatedTxn TxnLe := by
  constructor
  intro a b c h1 h2
  simp only [TxnLe, txnLeB] at h1 h2 ⊢
  by_cases hab : a.date = b.date <;> by_cases hbc : b.date = c.date
  · rw [if_pos (hab.trans hbc)]
    rw [if_pos hab] at h1
    rw [if_pos hbc] at h2
    simp_all
    omega
  · rw [if_pos hab] at h1
    rw [if_neg hbc] at h2
    rw [hab, if_neg hbc]
    exact h2
  · rw [if_neg hab] at h1
    rw [if_pos hbc] at h2
    rw [if_neg (hbc ▸ hab)]
    exact hbc ▸ h1
  · rw [if_neg hab] at h1
    rw [if_neg hbc] at h2
    by_cases hac : a.date = c.date
    · exact absurd (dateLtB_asymm (hac ▸ h2) h1) id
    · rw [if_neg hac]
      exact dateLtB_trans h2 h1

instance : IsAntisymm DatedTxn TxnLt := by
  constructor
  intro a b h1 h2
  exfalso
  rcases h1 with h1 | ⟨e1, l1⟩ <;> rcases h2 with h2 | ⟨e2, l2⟩
  · exact dateLtB_asymm h1 h2
  · rw [e2] at h1
    simp [dateLtB_irrefl] at h1
  · rw [e1] at h2
    simp [dateLtB_irrefl] at h2
  · omega

theorem txnLt_of_txnLe_ne {a b : DatedTxn} (h : TxnLe a b)
    (hne : a.txn.id ≠ b.txn.id) : TxnLt a b := by
  simp only [TxnLe, txnLeB] at h
  by_cases hd : a.date = b.date
  · rw [if_pos hd] at h
    simp only [decide_eq_true_eq] at h
    exact Or.inr ⟨hd, by omega⟩
  · rw [if_neg hd] at h
    exact Or.inl h

theorem dateLeB_total (a b : Date) : dateLeB a b = true ∨ dateLeB b a = true := by
  simp only [dateLeB, Bool.or_eq_true, decide_eq_true_eq]
  rcases hab : dateLtB a b with _ | _
  · rcases hba : dateLtB b a with _ | _
    · exact Or.inl (Or.inr (dateLtB_connex hab hba))
    · exact Or.inr (Or.inl rfl)
  · exact Or.inl (Or.inl rfl)

theorem dateLeB_trans {a b c : Date} (h1 : dateLeB a b = true) (h2 : dateLeB b c = true) :
    dateLeB a c = true := by
  simp only [dateLeB, Bool.or_eq_true, decide_eq_true_eq] at h1 h2 ⊢
  rcases h1 with h1 | h1 <;> rcases h2 with h2 | h2
  · exact Or.inl (dateLtB_trans h1 h2)
  · exact h2 ▸ Or.inl h1
  · exact Or.inl (h1 ▸ h2)
  · exact Or.inr (h1.trans h2)

instance : IsTotal PreSummary PreLe :=
  ⟨fun p q => (dateLeB_total q.monthDate p.monthDate).elim Or.inl Or.inr⟩

instance : IsTrans PreSummary PreLe :=
  ⟨fun _ _ _ h1 h2 => dateLeB_trans h2 h1⟩

/-! ### Lemmas about `mapO`, the error-propagating per-document stage -/

theorem mapO_eq_none {f : α → Option β} {l : List α} :
    mapO f l = none ↔ ∃ a ∈ l, f a = none := by
  induction l with
  | nil => simp [mapO]
  | cons a as ih =>
    simp only [mapO]
    rcases ha : f a with _ | b
    · simp [ha]
    · rcases has : mapO f as with _ | bs
      · simpa [ha, has] using ih.mp has
      · simp only [ha, has]
        constructor
        · intro h
          exact absurd h (by simp)
        · rintro ⟨x, hmem, hfx⟩
          rcases List.mem_cons.mp hmem with hx | hx
          · rw [hx] at hfx
            rw [hfx] at ha
            exact absurd ha (by simp)
          · have : mapO f as = none := ih.mpr ⟨x, hx, hfx⟩
            rw [has] at this
            exact absurd this (by simp)

theorem mapO_eq_some {f : α → Option β} {l : List α} {r : List β} :
    mapO f l = some r ↔ List.Forall₂ (fun a b => f a = some b) l r := by
  induction l generalizing r with
  | nil =>
    cases r <;> simp [mapO]
  | cons a as ih =>
    cases r with
    | nil =>
      rcases ha : f a with _ | b <;> rcases has : mapO f as with _ | bs <;>
        simp [mapO, ha, has]
    | cons r0 rs =>
      constructor
      · intro h
        rcases ha : f a with _ | b <;> rcases has : mapO f as with _ | bs <;>
          simp only [mapO, ha, has] at h <;>
          try exact Option.noConfusion h
        simp only [Option.some.injEq, List.cons.injEq] at h
        exact List.Forall₂.cons (h.1 ▸ ha) (ih.mp (h.2 ▸ has))
      · intro h
        obtain ⟨hfa, htl⟩ := List.forall₂_cons.mp h
        have := ih.mpr htl
        simp [mapO, hfa, this]

theorem mapO_mem {f : α → Option β} {l : List α} {r : List β}
    (h : mapO f l = some r) {x : β} (hx : x ∈ r) : ∃ a ∈ l, f a = some x := by
  induction l generalizing r with
  | nil =>
    simp only [mapO, Option.some.injEq] at h
    rw [← h] at hx
    cases hx
  | cons a as ih =>
    rcases ha : f a with _ | b <;> rcases has : mapO f as with _ | bs <;>
      simp only [mapO, ha, has] at h <;>
      try exact Option.noConfusion h
    simp only [Option.some.injEq] at h
    rw [← h] at hx
    rcases List.mem_cons.mp hx with h1 | h1
    · refine ⟨a, List.mem_cons_self .., ?_⟩
      rw [h1]
      exact ha
    · obtain ⟨a2, ha2, hfa2⟩ := ih has h1
      exact ⟨a2, List.mem_cons_of_mem _ ha2, hfa2⟩

theorem mapO_some_of_forall {f : α → Option β} {l : List α}
    (h : ∀ a ∈ l, f a ≠ none) : ∃ r, mapO f l = some r := by
  rcases hm : mapO f l with _ | r
  · obtain ⟨a, ha, hfa⟩ := mapO_eq_none.mp hm
    exact absurd hfa (h a ha)
  · exact ⟨r, rfl⟩

theorem mapO_perm_some {f : α → Option β} {l₁ l₂ : List α} (h : l₁.Perm l₂) :
    ∀ {r₁ r₂ : List β}, mapO f l₁ = some r₁ → mapO f l₂ = some r₂ → r₁.Perm r₂ := by
  induction h with
  | nil =>
    intro r₁ r₂ h1 h2
    simp only [mapO, Option.some.injEq] at h1 h2
    rw [← h1, ← h2]
  | cons a _ ih =>
    intro r₁ r₂ h1 h2
    simp only [mapO] at h1 h2
    rcases ha : f a with _ | b
    · rw [ha] at h1; exact absurd h1 (by simp)
    · rw [ha] at h1 h2
      rcases hm1 : mapO f _ with _ | bs1
      · rw [hm1] at h1; exact absurd h1 (by simp)
      · rcases hm2 : mapO f _ with _ | bs2
        · rw [hm2] at h2; exact absurd h2 (by simp)
        · rw [hm1] at h1
          rw [hm2] at h2
          injection h1 with h1
          injection h2 with h2
          rw [← h1, ← h2]
          exact (ih hm1 hm2).cons b
  | swap a b l =>
    intro r₁ r₂ h1 h2
    rcases ha : f a with _ | xa <;> rcases hb : f b with _ | xb <;>
      rcases hm : mapO f l with _ | xs <;>
      simp only [mapO, ha, hb, hm] at h1 h2 <;>
      try exact Option.noConfusion h1
    injection h1 with h1
    injection h2 with h2
    rw [← h1, ← h2]
    exact List.Perm.swap xa xb xs
  | trans h12 h23 ih1 ih2 =>
    intro r₁ r₂ h1 h2
    rcases hm : mapO f _ with _ | rm
    · have : mapO f _ = none := mapO_eq_none.mpr
        (by
          obtain ⟨a, ha, hfa⟩ := mapO_eq_none.mp hm
          exact ⟨a, h12.mem_iff.mpr ha, hfa⟩)
      rw [this] at h1
      exact absurd h1 (by simp)
    · exact (ih1 h1 hm).trans (ih2 hm h2)

/-! ### Lemmas about the grouping stage -/

theorem mem_dedupFirst {ks : List (Int × Nat)} {k : Int × Nat} :
    k ∈ dedupFirst ks ↔ k ∈ ks := by
  induction ks with
  | nil => simp [dedupFirst]
  | cons k0 ks ih =>
    simp only [dedupFirst, List.mem_cons, List.mem_filter, decide_eq_true_eq]
    constructor
    · rintro (h | ⟨h, _⟩)
      · exact Or.inl h
      · exact Or.inr (ih.mp h)
    · rintro (h | h)
      · exact Or.inl h
      · by_cases hk : k = k0
        · exact Or.inl hk
        · exact Or.inr ⟨ih.mpr h, hk⟩

theorem nodup_dedupFirst (ks : List (Int × Nat)) : (dedupFirst ks).Nodup := by
  induction ks with
  | nil => exact List.nodup_nil
  | cons k0 ks ih =>
    refine List.Nodup.cons ?_ (ih.filter _)
    intro hmem
    have := (List.mem_filter.mp hmem).2
    simp at this

theorem countP_and_not {p q : α → Bool} (l : List α) :
    l.countP (fun a => p a && q a) + l.countP (fun a => p a && !q a) = l.countP p := by
  induction l with
  | nil => simp
  | cons a as ih =>
    rcases hp : p a with _ | _ <;> rcases hq : q a with _ | _ <;>
      simp [List.countP_cons, hp, hq] <;> omega

theorem sum_countP_partition {κ : Type} [DecidableEq κ] (f : α → κ) (p : α → Bool) :
    ∀ (ks : List κ) (l : List α), ks.Nodup → (∀ a ∈ l, f a ∈ ks) →
      (ks.map (fun k => (l.filter (fun a => decide (f a = k))).countP p)).sum =
        l.countP p
  | [], l, _, hcov => by
    cases l with
    | nil => simp
    | cons a as => exact absurd (hcov a (List.mem_cons_self ..)) (by simp)
  | k :: ks, l, hnd, hcov => by
    simp only [List.map_cons, List.sum_cons]
    have hmap : ks.map (fun k2 => (l.filter (fun a => decide (f a = k2))).countP p) =
        ks.map (fun k2 =>
          ((l.filter (fun a => !decide (f a = k))).filter
            (fun a => decide (f a = k2))).countP p) := by
      apply List.map_congr_left
      intro k2 hk2
      have hne : k2 ≠ k := by
        rintro rfl
        exact (List.nodup_cons.mp hnd).1 hk2
      rw [List.filter_filter]
      congr 1
      apply List.filter_congr
      intro a _
      rcases hfa : decide (f a = k2) with _ | _
      · simp [hfa]
      · have hfk2 : f a = k2 := of_decide_eq_true hfa
        simp [hfa, hfk2, hne]
    rw [hmap, sum_countP_partition f p ks (l.filter (fun a => !decide (f a = k)))
      (List.nodup_cons.mp hnd).2
      (by
        intro a ha
        obtain ⟨hal, hak⟩ := List.mem_filter.mp ha
        rcases List.mem_cons.mp (hcov a hal) with h | h
        · simp [h] at hak
        · exact h)]
    rw [List.countP_filter, List.countP_filter]
    exact countP_and_not (p := p) (q := fun a => decide (f a = k)) l

/-! ### Lemmas about the category-join stage -/

theorem mem_enrichPreserve {cats : List Category} {t : Transaction} {e : EnrichedTxn}
    (h : e ∈ enrichPreserve cats t) : e.txn = t := by
  rcases hl : lookupCats cats t with _ | ⟨c, cs⟩ <;>
    simp only [enrichPreserve, hl] at h
  · rw [List.mem_singleton.mp h]
  · obtain ⟨c2, _, hc⟩ := List.mem_map.mp h
    rw [← hc]

theorem enrichPreserve_ne_nil (cats : List Category) (t : Transaction) :
    enrichPreserve cats t ≠ [] := by
  rcases hl : lookupCats cats t with _ | ⟨c, cs⟩ <;>
    simp [enrichPreserve, hl]

theorem lookupCats_length_le_one {cats : List Category}
    (hnd : (cats.map Category.id).Nodup) (t : Transaction) :
    (lookupCats cats t).length ≤ 1 := by
  induction cats with
  | nil => simp [lookupCats]
  | cons c cs ih =>
    rw [List.map_cons] at hnd
    obtain ⟨hni, hnd2⟩ := List.nodup_cons.mp hnd
    by_cases hc : some c.id = t.categoryId
    · have hnil : cs.filter (fun c2 => decide (some c2.id = t.categoryId)) = [] := by
        rw [List.filter_eq_nil_iff]
        intro c2 hc2
        simp only [decide_eq_true_eq]
        intro hq
        apply hni
        have h2 : c2.id = c.id := by
          have h3 : some c2.id = some c.id := hq.trans hc.symm
          injection h3
        rw [← h2]
        exact List.mem_map_of_mem _ hc2
      simp only [lookupCats]
      rw [List.filter_cons_of_pos (by simpa using hc), hnil]
      simp
    · simp only [lookupCats]
      rw [List.filter_cons_of_neg (by simpa using hc)]
      exact ih hnd2

theorem enrichPreserve_eq_one {cats : List Category}
    (hnd : (cats.map Category.id).Nodup) (t : Transaction) :
    enrichPreserve cats t = [enrichOne cats t] := by
  rcases hl : lookupCats cats t with _ | ⟨c, cs⟩
  · simp [enrichPreserve, enrichOne, hl]
  · have hlen := lookupCats_length_le_one hnd t
    rw [hl] at hlen
    have : cs = [] := by
      cases cs with
      | nil => rfl
      | cons d ds => simp at hlen
    subst this
    simp [enrichPreserve, enrichOne, hl]

theorem enrichOne_txn (cats : List Category) (t : Transaction) :
    (enrichOne cats t).txn = t := by
  rcases hl : lookupCats cats t with _ | ⟨c, cs⟩ <;> simp [enrichOne, hl]

theorem flatMap_eq_map {f : α → List β} {g : α → β} {l : List α}
    (h : ∀ a ∈ l, f a = [g a]) : l.flatMap f = l.map g := by
  induction l with
  | nil => rfl
  | cons a as ih =>
    simp only [List.flatMap_cons, List.map_cons, h a (List.mem_cons_self ..)]
    rw [ih (fun a2 ha2 => h a2 (List.mem_cons_of_mem _ ha2))]
    rfl

/-! ### Lemmas about the date-conversion stage -/

theorem dateTxn_inv {e : EnrichedTxn} {x : DatedTxn} (h : dateTxn e = some x) :
    x.txn = e.txn ∧ x.category = e.category ∧ toDate e.txn.date = some x.date := by
  unfold dateTxn at h
  rcases hd : toDate e.txn.date with _ | d <;> rw [hd] at h
  · exact Option.noConfusion h
  · simp only [Option.map_some'] at h
    injection h with h
    rw [← h]
    exact ⟨rfl, rfl, rfl⟩

theorem dated_map_txn {l : List EnrichedTxn} {dated : List DatedTxn}
    (h : mapO dateTxn l = some dated) :
    dated.map DatedTxn.txn = l.map EnrichedTxn.txn := by
  have hf := mapO_eq_some.mp h
  clear h
  induction hf with
  | nil => rfl
  | cons hab _ ih =>
    simp only [List.map_cons, ih, (dateTxn_inv hab).1]

theorem dated_date_inv {l : List EnrichedTxn} {dated : List DatedTxn}
    (h : mapO dateTxn l = some dated) :
    ∀ x ∈ dated, toDate x.txn.date = some x.date := by
  intro x hx
  obtain ⟨e, _, he⟩ := mapO_mem h hx
  obtain ⟨h1, _, h3⟩ := dateTxn_inv he
  rw [h1]
  exact h3

/-! ### Sortedness of the document stream entering the grouping stage -/

theorem pairwise_txnLt {dated : List DatedTxn}
    (hnd : (dated.map (fun x => x.txn.id)).Nodup) :
    (List.insertionSort TxnLe dated).Pairwise TxnLt := by
  have hs : (List.insertionSort TxnLe dated).Pairwise TxnLe :=
    List.sorted_insertionSort TxnLe dated
  have hperm := List.perm_insertionSort TxnLe dated
  have hnd2 : ((List.insertionSort TxnLe dated).map (fun x => x.txn.id)).Nodup :=
    (List.Perm.nodup_iff (hperm.map _)).mpr hnd
  have hne : (List.insertionSort TxnLe dated).Pairwise
      (fun a b => a.txn.id ≠ b.txn.id) := List.pairwise_map.mp hnd2
  exact (hs.and hne).imp (fun h => txnLt_of_txnLe_ne h.1 h.2)

/-! ### Spine lemmas: unfolding a produced report into its stages -/

theorem reportKeyed_inv {l : List EnrichedTxn} {pres : List PreSummary}
    (h : reportKeyed l = some pres) :
    ∃ dated, mapO dateTxn l = some dated ∧
      pres = List.insertionSort PreLe
        ((groupByMonth (List.insertionSort TxnLe dated)).map toPre) := by
  unfold reportKeyed at h
  obtain ⟨dated, hd, hp⟩ := Option.map_eq_some'.mp h
  exact ⟨dated, hd, hp.symm⟩

theorem monthlyReport_eq_keyed (uid : String) (s : Store) :
    monthlyReport uid s = (monthlyReportKeyed uid s).map (List.map dropMonthDate) := rfl

theorem mem_bucket_iff {l : List DatedTxn} {k : Int × Nat} {x : DatedTxn} :
    x ∈ (mkBucket l k).transactions ↔ x ∈ l ∧ monthKey x = k := by
  simp [mkBucket, List.mem_filter]

theorem mem_pres_trace {dated : List DatedTxn} {pres : List PreSummary}
    (hp : pres = List.insertionSort PreLe
      ((groupByMonth (List.insertionSort TxnLe dated)).map toPre))
    {p : PreSummary} (hmem : p ∈ pres) :
    ∃ k ∈ dedupFirst ((List.insertionSort TxnLe dated).map monthKey),
      p = toPre (mkBucket (List.insertionSort TxnLe dated) k) := by
  subst hp
  obtain ⟨b, hb, hbp⟩ :=
    List.mem_map.mp ((List.perm_insertionSort PreLe _).mem_iff.mp hmem)
  obtain ⟨k, hk, hbk⟩ := List.mem_map.mp hb
  exact ⟨k, hk, by rw [← hbp, ← hbk]⟩

theorem report_txn_source {uid : String} {s : Store} {pres : List PreSummary}
    (h : monthlyReportKeyed uid s = some pres)
    {p : PreSummary} (hp : p ∈ pres) {x : DatedTxn} (hx : x ∈ p.transactions) :
    ∃ t ∈ ownedTxns uid s, x.txn = t ∧ toDate t.date = some x.date ∧
      ∃ e ∈ enrichPreserve s.categories t, x.category = e.category := by
  obtain ⟨dated, hd, hpres⟩ := reportKeyed_inv h
  obtain ⟨k, _, hpk⟩ := mem_pres_trace hpres hp
  rw [hpk] at hx
  have hxs : x ∈ List.insertionSort TxnLe dated ∧ monthKey x = k := by
    simpa [toPre] using mem_bucket_iff.mp hx
  have hxd : x ∈ dated := (List.perm_insertionSort TxnLe dated).mem_iff.mp hxs.1
  obtain ⟨e, he, hex⟩ := mapO_mem hd hxd
  obtain ⟨h1, h2, h3⟩ := dateTxn_inv hex
  obtain ⟨t, ht, hte⟩ := List.mem_flatMap.mp he
  have htxn : e.txn = t := mem_enrichPreserve hte
  refine ⟨t, ht, h1.trans htxn, ?_, e, hte, h2⟩
  rw [← htxn]
  exact h3

theorem sum_ite_eq_sum_filter {P : α → Prop} [DecidablePred P] (f : α → Int)
    (l : List α) :
    (l.map (fun a => if P a then f a else 0)).sum =
      ((l.filter (fun a => decide (P a))).map f).sum := by
  induction l with
  | nil => rfl
  | cons a as ih =>
    by_cases hp : P a <;> simp [List.filter_cons, hp, ih]

theorem sum_map_eq_one_countP {β : Type} (f : β → Nat) :
    ∀ l : List β, (l.map f).sum = 1 →
      l.countP (fun b => !decide (f b = 0)) = 1
  | [], h => by simp at h
  | b :: bs, h => by
    simp only [List.map_cons, List.sum_cons] at h
    rcases hb : f b with _ | n
    · rw [hb] at h
      have ih := sum_map_eq_one_countP f bs (by omega)
      simp [List.countP_cons, hb, ih]
    · have hrest : (bs.map f).sum = 0 := by omega
      have hz : bs.countP (fun b2 => !decide (f b2 = 0)) = 0 := by
        rw [List.countP_eq_zero]
        intro b2 hb2
        have hf2 : f b2 = 0 := by
          by_contra hne
          have hpos : 0 < (bs.map f).sum := by
            have hmem : f b2 ∈ bs.map f := List.mem_map_of_mem f hb2
            have := List.single_le_sum (by intro x _; omega) _ hmem
            omega
          omega
        simp [hf2]
      have hdec : (!decide (f b = 0)) = true := by simp [hb]
      rw [List.countP_cons, hz, hdec]
      simp

theorem enriched_map_txn {cats : List Category} (owned : List Transaction)
    (hcat : (cats.map Category.id).Nodup) :
    (owned.flatMap (enrichPreserve cats)).map EnrichedTxn.txn = owned := by
  rw [flatMap_eq_map (fun t _ => enrichPreserve_eq_one hcat t), List.map_map]
  rw [List.map_congr_left (fun t _ => by
    show (EnrichedTxn.txn ∘ enrichOne cats) t = id t
    simp [Function.comp, enrichOne_txn])]
  exact List.map_id _

theorem dated_ids_nodup {uid : String} {s : Store} {dated : List DatedTxn}
    (hd : mapO dateTxn ((ownedTxns uid s).flatMap (enrichPreserve s.categories)) =
      some dated)
    (hcat : (s.categories.map Category.id).Nodup)
    (hnd : (s.transactions.map Transaction.id).Nodup) :
    (dated.map (fun x => x.txn.id)).Nodup := by
  have h1 : dated.map (fun x => x.txn.id) = (ownedTxns uid s).map Transaction.id := by
    calc dated.map (fun x => x.txn.id)
        = (dated.map DatedTxn.txn).map Transaction.id := by
          rw [List.map_map]
          rfl
      _ = (((ownedTxns uid s).flatMap
            (enrichPreserve s.categories)).map EnrichedTxn.txn).map Transaction.id := by
          rw [dated_map_txn hd]
      _ = (ownedTxns uid s).map Transaction.id := by
          rw [enriched_map_txn _ hcat]
  rw [h1]
  exact List.Nodup.sublist (List.Sublist.map _ (List.filter_sublist _)) hnd

theorem pres_monthDate_nodup (sorted : List DatedTxn) :
    (((groupByMonth sorted).map toPre).map (fun p => p.monthDate)).Nodup := by
  have h1 : ((groupByMonth sorted).map toPre).map (fun p => p.monthDate) =
      (dedupFirst (sorted.map monthKey)).map (fun k => (⟨k.1, k.2, 1⟩ : Date)) := by
    unfold groupByMonth
    rw [List.map_map, List.map_map]
    rfl
  rw [h1]
  refine List.Nodup.map ?_ (nodup_dedupFirst _)
  intro k1 k2 h
  simp only [Date.mk.injEq] at h
  cases k1
  cases k2
  simp_all

theorem grouped_countP_sum (l : List DatedTxn) (p : DatedTxn → Bool) :
    (((groupByMonth l).map toPre).map (fun q => q.transactions.countP p)).sum =
      l.countP p := by
  have hmaps : ((groupByMonth l).map toPre).map (fun q => q.transactions.countP p) =
      (dedupFirst (l.map monthKey)).map
        (fun k => (l.filter (fun d => decide (monthKey d = k))).countP p) := by
    unfold groupByMonth
    rw [List.map_map, List.map_map]
    exact List.map_congr_left (fun k _ => rfl)
  rw [hmaps]
  exact sum_countP_partition monthKey p _ l (nodup_dedupFirst _)
    (fun a ha => mem_dedupFirst.mpr (List.mem_map_of_mem _ ha))

theorem key_source {uid : String} {s : Store} {dated : List DatedTxn} {k : Int × Nat}
    (hd : mapO dateTxn ((ownedTxns uid s).flatMap (enrichPreserve s.categories)) =
      some dated)
    (hk : k ∈ dedupFirst ((List.insertionSort TxnLe dated).map monthKey)) :
    ∃ t ∈ ownedTxns uid s, ∃ d, toDate t.date = some d ∧ d.year = k.1 ∧ d.month = k.2 := by
  rw [mem_dedupFirst] at hk
  obtain ⟨x, hx, hxk⟩ := List.mem_map.mp hk
  have hxd : x ∈ dated := (List.perm_insertionSort TxnLe dated).mem_iff.mp hx
  obtain ⟨e, he, hex⟩ := mapO_mem hd hxd
  obtain ⟨h1, _, h3⟩ := dateTxn_inv hex
  obtain ⟨t, ht, hte⟩ := List.mem_flatMap.mp he
  have htxn : e.txn = t := mem_enrichPreserve hte
  refine ⟨t, ht, x.date, by rw [← htxn]; exact h3, ?_, ?_⟩
  · rw [← hxk]
    rfl
  · rw [← hxk]
    rfl

theorem report_totals {l : List EnrichedTxn} {r : List MonthSummary}
    (h : reportShared l = some r) {ms : MonthSummary} (hm : ms ∈ r) :
    ms.totalIncome = ((ms.transactions.filter
      (fun x => decide (x.txn.type = "income"))).map (fun x => x.txn.amount)).sum ∧
    ms.totalExpense = ((ms.transactions.filter
      (fun x => decide (x.txn.type = "expense"))).map (fun x => x.txn.amount)).sum ∧
    ms.net = ms.totalIncome - ms.totalExpense := by
  obtain ⟨pres, hk, hr⟩ := Option.map_eq_some'.mp h
  rw [← hr] at hm
  obtain ⟨p, hp, hpm⟩ := List.mem_map.mp hm
  obtain ⟨dated, hd, hpres⟩ := reportKeyed_inv hk
  obtain ⟨k, _, hpk⟩ := mem_pres_trace hpres hp
  rw [← hpm, hpk]
  simp only [dropMonthDate, toPre, mkBucket]
  exact ⟨sum_ite_eq_sum_filter _ _, sum_ite_eq_sum_filter _ _, trivial⟩

/-! ### Failure propagation of the aggregation -/

theorem monthlyReport_none_iff (uid : String) (s : Store) :
    monthlyReport uid s = none ↔ ∃ t ∈ ownedTxns uid s, toDate t.date = none := by
  unfold monthlyReport reportShared reportKeyed
  simp only [Option.map_eq_none']
  rw [mapO_eq_none]
  constructor
  · rintro ⟨e, he, hde⟩
    obtain ⟨t, ht, hte⟩ := List.mem_flatMap.mp he
    have htxn : e.txn = t := mem_enrichPreserve hte
    refine ⟨t, ht, ?_⟩
    unfold dateTxn at hde
    rw [Option.map_eq_none'] at hde
    rw [← htxn]
    exact hde
  · rintro ⟨t, ht, htd⟩
    obtain ⟨e, he⟩ := List.exists_mem_of_ne_nil _ (enrichPreserve_ne_nil s.categories t)
    refine ⟨e, List.mem_flatMap.mpr ⟨t, ht, he⟩, ?_⟩
    unfold dateTxn
    rw [Option.map_eq_none', mem_enrichPreserve he]
    exact htd

/-! ### Lemmas about the `PUT /transactions/:id` handler -/

theorem updateFirst_frame (p : Transaction → Bool) (b : UpdateBody) (now : Nat) :
    ∀ l : List Transaction,
      ((updateFirst p (applyUpdates b now) l).1).map
          (fun t => (t.id, t.userId, t.createdAt)) =
        l.map (fun t => (t.id, t.userId, t.createdAt))
  | [] => rfl
  | t :: ts => by
    rcases hp : p t with _ | _
    · simp [updateFirst, hp, updateFirst_frame p b now ts]
    · simp [updateFirst, hp, applyUpdates]

theorem updateFirst_no_match (p : Transaction → Bool) (f : Transaction → Transaction) :
    ∀ l : List Transaction, (∀ t ∈ l, p t = false) → updateFirst p f l = (l, false)
  | [], _ => rfl
  | t :: ts, h => by
    have hp := h t (List.mem_cons_self ..)
    simp [updateFirst, hp,
      updateFirst_no_match p f ts (fun t2 ht2 => h t2 (List.mem_cons_of_mem _ ht2))]

/-! ### Claim theorems -/

/-- C3: in every emitted month summary, `totalIncome` is the sum of
the amounts of the bucket's income transactions, `totalExpense` the
sum over its expense transactions, and `net` is their difference
(possibly negative). -/
theorem c3_month_totals (uid : String) (s : Store) (r : List MonthSummary)
    (h : monthlyReport uid s = some r) (ms : MonthSummary) (hm : ms ∈ r) :
    ms.totalIncome = ((ms.transactions.filter
      (fun x => decide (x.txn.type = "income"))).map (fun x => x.txn.amount)).sum ∧
    ms.totalExpense = ((ms.transactions.filter
      (fun x => decide (x.txn.type = "expense"))).map (fun x => x.txn.amount)).sum ∧
    ms.net = ms.totalIncome - ms.totalExpense :=
  report_totals h hm

/-- Witness for C3 at the specification's worked example. -/
theorem c3_month_totals_witness :
    (exReport.getD 0 msDefault).net =
      (exReport.getD 0 msDefault).totalIncome -
        (exReport.getD 0 msDefault).totalExpense :=
  (c3_month_totals "A" exStore exReport (by decide) (exReport.getD 0 msDefault)
    (by decide)).2.2

/-- C5: the aggregation is all-or-nothing: it answers `none` (the
route's propagated 500) exactly when some owned transaction's stored
date cannot be converted to a calendar date, and whenever it answers
with a report every owned transaction's date was convertible — no
record is silently dropped for an unparseable date. -/
theorem c5_failure_propagation (uid : String) (s : Store) :
    (monthlyReport uid s = none ↔ ∃ t ∈ ownedTxns uid s, toDate t.date = none) ∧
    ∀ r, monthlyReport uid s = some r → ∀ t ∈ ownedTxns uid s, toDate t.date ≠ none :=
  ⟨monthlyReport_none_iff uid s, fun r hr t ht hbad => by
    have h2 := (monthlyReport_none_iff uid s).mpr ⟨t, ht, hbad⟩
    rw [hr] at h2
    exact Option.noConfusion h2⟩

/-- C9: `PUT /transactions/:id` never changes `_id`, `userId` or
`createdAt` of any stored transaction (its `$set` only carries date,
type, amount, note, categoryId and updatedAt), and when no stored
transaction has the given id with the caller as owner the store is
left untouched and the handler answers 404. -/
theorem c9_owner_immutable (uid : String) (tid : Nat) (b : UpdateBody) (now : Nat)
    (s : Store) :
    ((putTransaction uid tid b now s).1.transactions.map
        (fun t => (t.id, t.userId, t.createdAt)) =
      s.transactions.map (fun t => (t.id, t.userId, t.createdAt))) ∧
    (putTransaction uid tid b now s).1.categories = s.categories ∧
    ((∀ t ∈ s.transactions, ¬(t.id = tid ∧ t.userId = uid)) →
      putTransaction uid tid b now s = (s, 404)) := by
  refine ⟨?_, ?_, ?_⟩
  · rcases hr : (updateFirst (fun t => decide (t.id = tid) && decide (t.userId = uid))
        (applyUpdates b now) s.transactions).2 with _ | _
    · simp [putTransaction, hr]
    · simp [putTransaction, hr]
      exact updateFirst_frame _ b now s.transactions
  · rcases hr : (updateFirst (fun t => decide (t.id = tid) && decide (t.userId = uid))
        (applyUpdates b now) s.transactions).2 with _ | _ <;>
      simp [putTransaction, hr]
  · intro hno
    have hz : updateFirst (fun t => decide (t.id = tid) && decide (t.userId = uid))
        (applyUpdates b now) s.transactions = (s.transactions, false) :=
      updateFirst_no_match _ _ _ (fun t ht => by
        by_cases h1 : t.id = tid
        · by_cases h2 : t.userId = uid
          · exact absurd ⟨h1, h2⟩ (hno t ht)
          · simp [h1, h2]
        · simp [h1])
    simp [putTransaction, hz]

/-- Witness for C9: caller "B" cannot touch the transaction with id 1,
which is owned by "A". -/
theorem c9_owner_immutable_witness :
    putTransaction "B" 1 exBody 7 exStore = (exStore, 404) :=
  (c9_owner_immutable "B" 1 exBody 7 exStore).2.2 (by decide)

/-- C10: `POST /transactions` answers 400 "Missing required fields"
whenever the amount is zero (a falsy value failing the `!amount`
check) or the date, type or categoryId is missing/falsy, leaving the
store unchanged; so a zero-amount transaction can never be created
through this endpoint. -/
theorem c10_zero_amount_rejected (uid : String) (b : PostBody) (now newId : Nat)
    (s : Store)
    (h : b.amount = some 0 ∨ b.date = none ∨ b.type = none ∨ b.categoryId = none) :
    postTransaction uid b now newId s = (s, 400) := by
  rcases hd : b.date with _ | d <;> rcases ht : b.type with _ | ty <;>
    rcases ha : b.amount with _ | a <;> rcases hc : b.categoryId with _ | c <;>
    simp only [postTransaction, hd, ht, ha, hc]
  rcases h with h | h | h | h
  · rw [ha] at h
    injection h with h
    rw [if_pos (Or.inr h)]
  · exact Option.noConfusion (hd.symm.trans h)
  · exact Option.noConfusion (ht.symm.trans h)
  · exact Option.noConfusion (hc.symm.trans h)

/-- Witness for C10: an otherwise fully-populated body with amount 0
is rejected with 400 and the store is unchanged. -/
theorem c10_zero_amount_rejected_witness :
    postTransaction "A" ⟨some (.valid ⟨2024, 1, 1⟩), some "expense", some 0, none,
      some 10⟩ 3 99 exStore = (exStore, 400) :=
  c10_zero_amount_rejected "A" _ 3 99 exStore (Or.inl rfl)

/-- C2 counterexample: a cross-owner category reference is not
replaced by the "Uncategorized" placeholder.  `cxTxn` belongs to "A"
but references `cxCat`, owned by "B"; the `$lookup` joins on `_id`
alone, so "A"'s report shows the foreign category "Food". -/
theorem c2_cross_owner_resolves :
    cxTxn.userId = "A" ∧ cxCat.userId = "B" ∧ cxTxn.categoryId = some cxCat.id ∧
    (monthlyReport "A" cxStore).map
        (fun r => r.map (fun ms => ms.transactions.map (fun x => x.category.name))) =
      some [["Food"]] ∧
    "Food" ≠ "Uncategorized" :=
  ⟨rfl, rfl, rfl, by decide, by decide⟩

/-- C2 (amended): the placeholder `{id: null, name: "Uncategorized",
kind: the transaction's own kind, icon: null}` is substituted exactly
when the category reference is null or no category in the store
carries the referenced id — owner is not consulted, so a reference to
an existing category of another owner resolves to that category
instead; the substitution itself never fails: the aggregation errors
only on unconvertible dates. -/
theorem c2_placeholder_substitution (uid : String) (s : Store) :
    (∀ r, monthlyReport uid s = some r → ∀ ms ∈ r, ∀ x ∈ ms.transactions,
      ((∀ c ∈ s.categories, some c.id ≠ x.txn.categoryId) →
        x.category = ⟨none, "Uncategorized", x.txn.type, none⟩) ∧
      (∀ c ∈ s.categories, some c.id = x.txn.categoryId →
        ∃ c2 ∈ s.categories, some c2.id = x.txn.categoryId ∧
          x.category = catView c2)) ∧
    (monthlyReport uid s = none ↔ ∃ t ∈ ownedTxns uid s, toDate t.date = none) := by
  refine ⟨?_, monthlyReport_none_iff uid s⟩
  intro r hr ms hm x hx
  rw [monthlyReport_eq_keyed] at hr
  obtain ⟨pres, hk, hrr⟩ := Option.map_eq_some'.mp hr
  rw [← hrr] at hm
  obtain ⟨p, hp, hpm⟩ := List.mem_map.mp hm
  have hx2 : x ∈ p.transactions := by
    rw [← hpm] at hx
    exact hx
  obtain ⟨t, _, htx, _, e, hte, hce⟩ := report_txn_source hk hp hx2
  constructor
  · intro hall
    have hl : lookupCats s.categories t = [] := by
      unfold lookupCats
      rw [List.filter_eq_nil_iff]
      intro c hc
      simp only [decide_eq_true_eq]
      rw [← htx]
      exact hall c hc
    rw [enrichPreserve, hl] at hte
    have he : e = ⟨t, placeholderCat t⟩ := List.mem_singleton.mp hte
    rw [hce, he]
    simp [placeholderCat, htx]
  · intro c hc hcid
    rcases hl : lookupCats s.categories t with _ | ⟨c0, cs⟩
    · exfalso
      have : c ∈ lookupCats s.categories t := by
        unfold lookupCats
        rw [List.mem_filter]
        refine ⟨hc, ?_⟩
        simp only [decide_eq_true_eq]
        rw [htx] at hcid
        exact hcid
      rw [hl] at this
      cases this
    · rw [enrichPreserve, hl] at hte
      obtain ⟨c2, hc2, hc2e⟩ := List.mem_map.mp hte
      rw [← hl] at hc2
      obtain ⟨hc2s, hc2id⟩ := List.mem_filter.mp hc2
      refine ⟨c2, hc2s, ?_, ?_⟩
      · rw [htx]
        exact of_decide_eq_true hc2id
      · rw [hce, ← hc2e]

/-- Witness for C2 (amended): in the worked example the December
expense has a null category reference and is emitted with the
"Uncategorized" placeholder. -/
theorem c2_placeholder_substitution_witness :
    ((exReport.getD 1 msDefault).transactions.getD 0 dtDefault).category =
      ⟨none, "Uncategorized",
        ((exReport.getD 1 msDefault).transactions.getD 0 dtDefault).txn.type, none⟩ :=
  ((c2_placeholder_substitution "A" exStore).1 exReport (by decide)
    (exReport.getD 1 msDefault) (by decide)
    ((exReport.getD 1 msDefault).transactions.getD 0 dtDefault) (by decide)).1
    (by decide)

/-- C8: every emitted month summary carries a label of the form
abbreviated-month plus 4-digit year, its transactions and the three
totals; the emitted record is the final projection of the keyed one,
which forgets the internal `monthDate` sort key, so the emitted
content never depends on it. -/
theorem c8_month_label (uid : String) (s : Store) (pres : List PreSummary)
    (hk : monthlyReportKeyed uid s = some pres)
    (hval : ∀ t ∈ ownedTxns uid s, ∀ d ∈ toDate t.date, 1 ≤ d.month ∧ d.month ≤ 12) :
    monthlyReport uid s = some (pres.map dropMonthDate) ∧
    (∀ p ∈ pres, ∃ y m, 1 ≤ m ∧ m ≤ 12 ∧ p.monthDate = ⟨y, m, 1⟩ ∧
      p.month = monthAbbrev m ++ " " ++ year4 y) ∧
    (∀ p ∈ pres, dropMonthDate p =
      ⟨p.month, p.transactions, p.totalIncome, p.totalExpense, p.net⟩) ∧
    ∀ (p : PreSummary) (d : Date),
      dropMonthDate { p with monthDate := d } = dropMonthDate p := by
  refine ⟨?_, ?_, fun p _ => rfl, fun p d => rfl⟩
  · rw [monthlyReport_eq_keyed, hk]
    rfl
  · intro p hp
    obtain ⟨dated, hd, hpres⟩ := reportKeyed_inv hk
    obtain ⟨k, hkmem, hpk⟩ := mem_pres_trace hpres hp
    obtain ⟨t, ht, d, htd, hy, hm⟩ := key_source hd hkmem
    have hbound := hval t ht d (Option.mem_def.mpr htd)
    refine ⟨k.1, k.2, ?_, ?_, ?_, ?_⟩
    · rw [← hm]
      exact hbound.1
    · rw [← hm]
      exact hbound.2
    · rw [hpk]
      rfl
    · rw [hpk]
      rfl

/-- Witness for C8 at the worked example: the emitted report is the
keyed one with `monthDate` projected away. -/
theorem c8_month_label_witness :
    monthlyReport "A" exStore = some (exPres.map dropMonthDate) :=
  (c8_month_label "A" exStore exPres (by decide) (by decide)).1

/-- C4: the emitted sequence of month summaries is strictly
descending by (year, month), and inside every summary the transaction
list is strictly descending by (date, id) — later dates first, ties
broken by larger id first. -/
theorem c4_report_ordering (uid : String) (s : Store) (pres : List PreSummary)
    (hk : monthlyReportKeyed uid s = some pres)
    (hcat : (s.categories.map Category.id).Nodup)
    (hnd : (s.transactions.map Transaction.id).Nodup) :
    monthlyReport uid s = some (pres.map dropMonthDate) ∧
    pres.Pairwise (fun p q => q.monthDate.year < p.monthDate.year ∨
      (q.monthDate.year = p.monthDate.year ∧ q.monthDate.month < p.monthDate.month)) ∧
    ∀ ms ∈ pres.map dropMonthDate, ms.transactions.Pairwise TxnLt := by
  obtain ⟨dated, hd, hpres⟩ := reportKeyed_inv hk
  refine ⟨by rw [monthlyReport_eq_keyed, hk]; rfl, ?_, ?_⟩
  · have hs : pres.Pairwise PreLe := by
      rw [hpres]
      exact List.sorted_insertionSort PreLe _
    have hday : ∀ p ∈ pres, p.monthDate.day = 1 := by
      intro p hp
      obtain ⟨k, _, hpk⟩ := mem_pres_trace hpres hp
      rw [hpk]
      rfl
    have hnodup : (pres.map (fun p => p.monthDate)).Nodup := by
      rw [hpres]
      exact (List.Perm.nodup_iff
        ((List.perm_insertionSort PreLe _).map (fun p => p.monthDate))).mpr
        (pres_monthDate_nodup _)
    have hne : pres.Pairwise (fun p q => p.monthDate ≠ q.monthDate) :=
      List.pairwise_map.mp hnodup
    refine List.Pairwise.imp_of_mem ?_ (hs.and hne)
    rintro p q hp hq ⟨hle, hneq⟩
    have hlt : dateLtB q.monthDate p.monthDate = true := by
      have h2 : dateLtB q.monthDate p.monthDate = true ∨ q.monthDate = p.monthDate := by
        simpa [PreLe, dateLeB] using hle
      exact h2.resolve_right (fun h3 => hneq h3.symm)
    rw [dateLtB_iff] at hlt
    have hdp := hday p hp
    have hdq := hday q hq
    rcases hlt with h | ⟨h1, h2 | ⟨h2, h3⟩⟩
    · exact Or.inl h
    · exact Or.inr ⟨h1, h2⟩
    · rw [hdp, hdq] at h3
      exact absurd h3 (lt_irrefl _)
  · intro ms hms
    obtain ⟨p, hp, hpm⟩ := List.mem_map.mp hms
    obtain ⟨k, _, hpk⟩ := mem_pres_trace hpres hp
    have hpw : (List.insertionSort TxnLe dated).Pairwise TxnLt :=
      pairwise_txnLt (dated_ids_nodup hd hcat hnd)
    have htr : ms.transactions =
        (List.insertionSort TxnLe dated).filter (fun d => decide (monthKey d = k)) := by
      rw [← hpm, hpk]
      rfl
    rw [htr]
    exact List.Pairwise.sublist (List.filter_sublist _) hpw

/-- Witness for C4 at the worked example: the two month summaries are
strictly descending by (year, month). -/
theorem c4_report_ordering_witness :
    exPres.Pairwise (fun p q => q.monthDate.year < p.monthDate.year ∨
      (q.monthDate.year = p.monthDate.year ∧ q.monthDate.month < p.monthDate.month)) :=
  (c4_report_ordering "A" exStore exPres (by decide) (by decide) (by decide)).2.1

theorem filter_owner_sub {A B : String} (hAB : A ≠ B) (l : List Transaction) :
    l.filter (fun t => decide (t.userId = B)) =
      (l.filter (fun t => decide (t.userId ≠ A))).filter
        (fun t => decide (t.userId = B)) := by
  rw [List.filter_filter]
  refine (List.filter_congr ?_)
  intro t _
  by_cases h : t.userId = B
  · simp [h]
    exact fun hh => hAB hh.symm
  · simp [h]

/-- C6: ownership isolation of the report.  The `$match {userId}`
stage makes caller B's report a function of B's own transactions (and
the categories collection) only: two snapshots that differ only in
transactions owned by a different caller A produce the identical
report for B, and every transaction emitted in B's report carries
owner B. -/
theorem c6_ownership_isolation (A B : String) (s s2 : Store)
    (hAB : A ≠ B)
    (hcats : s2.categories = s.categories)
    (htx : s2.transactions.filter (fun t => decide (t.userId ≠ A)) =
      s.transactions.filter (fun t => decide (t.userId ≠ A))) :
    monthlyReport B s2 = monthlyReport B s ∧
    ∀ r, monthlyReport B s = some r → ∀ ms ∈ r, ∀ x ∈ ms.transactions,
      x.txn.userId = B := by
  constructor
  · have howned : ownedTxns B s2 = ownedTxns B s := by
      unfold ownedTxns
      rw [filter_owner_sub hAB, htx, ← filter_owner_sub hAB]
    unfold monthlyReport
    rw [howned, hcats]
  · intro r hr ms hm x hx
    rw [monthlyReport_eq_keyed] at hr
    obtain ⟨pres, hk, hrr⟩ := Option.map_eq_some'.mp hr
    rw [← hrr] at hm
    obtain ⟨p, hp, hpm⟩ := List.mem_map.mp hm
    have hx2 : x ∈ p.transactions := by
      rw [← hpm] at hx
      exact hx
    obtain ⟨t, ht, htx2, _, _⟩ := report_txn_source hk hp hx2
    rw [htx2]
    exact of_decide_eq_true (List.mem_filter.mp ht).2

/-- Witness for C6: deleting all of "A"'s transactions leaves "B"'s
report unchanged. -/
theorem c6_ownership_isolation_witness :
    monthlyReport "B" exStoreNoA = monthlyReport "B" exStore :=
  (c6_ownership_isolation "A" "B" exStore exStoreNoA (by decide) (by decide)
    (by decide)).1

/-- C1: completeness of the aggregation (part_002 revision, whose
`preserveNullAndEmptyArrays` keeps transactions with a null or
dangling category reference).  When the keyed report is produced, the
total transaction count over all month summaries equals the number of
owned transactions, and every owned transaction occurs with total
multiplicity one, inside exactly one summary — the one whose
(year, month) is that of the transaction's converted date. -/
theorem c1_completeness (uid : String) (s : Store) (pres : List PreSummary)
    (hk : monthlyReportKeyed uid s = some pres)
    (hcat : (s.categories.map Category.id).Nodup)
    (hnd : (s.transactions.map Transaction.id).Nodup) :
    monthlyReport uid s = some (pres.map dropMonthDate) ∧
    (pres.map (fun p => p.transactions.length)).sum = (ownedTxns uid s).length ∧
    ∀ t ∈ ownedTxns uid s, ∃ d, toDate t.date = some d ∧
      (pres.map (fun p => p.transactions.countP
        (fun x => decide (x.txn = t)))).sum = 1 ∧
      pres.countP (fun p => decide (∃ x ∈ p.transactions, x.txn = t)) = 1 ∧
      ∀ p ∈ pres, (∃ x ∈ p.transactions, x.txn = t) →
        p.monthDate.year = d.year ∧ p.monthDate.month = d.month := by
  obtain ⟨dated, hd, hpres⟩ := reportKeyed_inv hk
  have hsperm : (List.insertionSort TxnLe dated).Perm dated :=
    List.perm_insertionSort TxnLe dated
  have howned : dated.map DatedTxn.txn = ownedTxns uid s := by
    rw [dated_map_txn hd, enriched_map_txn _ hcat]
  have hsum : ∀ p : DatedTxn → Bool,
      (pres.map (fun q => q.transactions.countP p)).sum =
        (List.insertionSort TxnLe dated).countP p := by
    intro p
    have hperm2 : (pres.map (fun q => q.transactions.countP p)).Perm
        (((groupByMonth (List.insertionSort TxnLe dated)).map toPre).map
          (fun q => q.transactions.countP p)) := by
      refine List.Perm.map _ ?_
      rw [hpres]
      exact List.perm_insertionSort PreLe _
    rw [hperm2.sum_eq, grouped_countP_sum]
  have hown_nodup : (ownedTxns uid s).Nodup := by
    have h2 : ((ownedTxns uid s).map Transaction.id).Nodup :=
      List.Nodup.sublist (List.Sublist.map _ (List.filter_sublist _)) hnd
    exact h2.of_map _
  refine ⟨by rw [monthlyReport_eq_keyed, hk]; rfl, ?_, ?_⟩
  · have h1 := hsum (fun _ => true)
    have h2 : (List.insertionSort TxnLe dated).length = (ownedTxns uid s).length := by
      rw [hsperm.length_eq, ← howned, List.length_map]
    rw [← h2]
    simpa [List.countP_true] using h1
  · intro t ht
    have hday : toDate t.date ≠ none := by
      intro hbad
      have h2 := (monthlyReport_none_iff uid s).mpr ⟨t, ht, hbad⟩
      rw [monthlyReport_eq_keyed, hk] at h2
      exact Option.noConfusion h2
    rcases hdd : toDate t.date with _ | d
    · exact absurd hdd hday
    refine ⟨d, rfl, ?_⟩
    have hinv : ∀ x ∈ List.insertionSort TxnLe dated,
        toDate x.txn.date = some x.date := by
      intro x hx
      exact dated_date_inv hd x (hsperm.mem_iff.mp hx)
    have hcount : (List.insertionSort TxnLe dated).countP
        (fun x => decide (x.txn = t)) = 1 := by
      rw [List.Perm.countP_eq _ hsperm]
      have h2 : dated.countP (fun x => decide (x.txn = t)) =
          (dated.map DatedTxn.txn).countP (fun y => decide (y = t)) := by
        rw [List.countP_map]
        rfl
      rw [h2, howned]
      exact List.count_eq_one_of_mem hown_nodup ht
    have hmass := hsum (fun x => decide (x.txn = t))
    rw [hcount] at hmass
    refine ⟨hmass, ?_, ?_⟩
    · have h4 := sum_map_eq_one_countP
        (fun p => p.transactions.countP (fun x => decide (x.txn = t))) pres hmass
      rw [← h4]
      refine List.countP_congr ?_
      intro p _
      simp only [decide_eq_true_eq, Bool.not_eq_true', decide_eq_false_iff_not]
      constructor
      · rintro ⟨x, hx, hxt⟩
        intro h0
        rw [List.countP_eq_zero] at h0
        exact h0 x hx (by simp [hxt])
      · intro h0
        have hpos : 0 < p.transactions.countP (fun x => decide (x.txn = t)) :=
          Nat.pos_of_ne_zero h0
        obtain ⟨x, hx, hxt⟩ := List.countP_pos_iff.mp hpos
        exact ⟨x, hx, of_decide_eq_true hxt⟩
    · intro p hp hex
      obtain ⟨k, hkmem, hpk⟩ := mem_pres_trace hpres hp
      obtain ⟨x, hx, hxt⟩ := hex
      rw [hpk] at hx
      have hxs : x ∈ List.insertionSort TxnLe dated ∧ monthKey x = k :=
        mem_bucket_iff.mp (by simpa [toPre] using hx)
      have hxdate : x.date = d := by
        have h5 := hinv x hxs.1
        rw [hxt, hdd] at h5
        injection h5 with h5
        exact h5.symm
      have hk2 : k = (d.year, d.month) := by
        rw [← hxs.2, ← hxdate]
        rfl
      rw [hpk, hk2]
      exact ⟨rfl, rfl⟩

/-- Witness for C1 at the worked example: the three owned transactions
are distributed over the two summaries with none lost or duplicated. -/
theorem c1_completeness_witness :
    (exPres.map (fun p => p.transactions.length)).sum =
      (ownedTxns "A" exStore).length :=
  (c1_completeness "A" exStore exPres (by decide) (by decide) (by decide)).2.1

theorem perm_eq_of_length_le_one {l₁ l₂ : List α} (h : l₁.Perm l₂)
    (hlen : l₁.length ≤ 1) : l₁ = l₂ := by
  cases l₁ with
  | nil => exact (h.symm.eq_nil).symm
  | cons a as =>
    cases as with
    | nil => exact (List.perm_singleton.mp h.symm).symm
    | cons b bs => simp at hlen

theorem lookupCats_perm_eq {cats2 cats : List Category}
    (hcs : cats2.Perm cats) (hcat : (cats.map Category.id).Nodup)
    (t : Transaction) : lookupCats cats2 t = lookupCats cats t := by
  have hcat2 : (cats2.map Category.id).Nodup :=
    (List.Perm.nodup_iff (hcs.map _)).mpr hcat
  exact perm_eq_of_length_le_one (hcs.filter _) (lookupCats_length_le_one hcat2 t)

/-- C7: the aggregation is deterministic in its input snapshot: any
permutation of the stored transactions and categories (with the
Mongo-guaranteed unique `_id`s) yields the identical report, because
the (date-descending, id-descending) sort gives the document stream a
storage-order-independent order and every later stage is a function
of that stream. -/
theorem c7_determinism (uid : String) (s s2 : Store)
    (hts : s2.transactions.Perm s.transactions)
    (hcs : s2.categories.Perm s.categories)
    (hcat : (s.categories.map Category.id).Nodup)
    (hnd : (s.transactions.map Transaction.id).Nodup) :
    monthlyReport uid s2 = monthlyReport uid s := by
  have hcat2 : (s2.categories.map Category.id).Nodup :=
    (List.Perm.nodup_iff (hcs.map _)).mpr hcat
  have hnd2 : (s2.transactions.map Transaction.id).Nodup :=
    (List.Perm.nodup_iff (hts.map _)).mpr hnd
  have hop : (ownedTxns uid s2).Perm (ownedTxns uid s) := hts.filter _
  have he2 : (ownedTxns uid s2).flatMap (enrichPreserve s2.categories) =
      (ownedTxns uid s2).map (enrichOne s.categories) := by
    rw [flatMap_eq_map (fun t _ => enrichPreserve_eq_one hcat2 t)]
    exact List.map_congr_left (fun t _ => by
      unfold enrichOne
      rw [lookupCats_perm_eq hcs hcat t])
  have he1 : (ownedTxns uid s).flatMap (enrichPreserve s.categories) =
      (ownedTxns uid s).map (enrichOne s.categories) :=
    flatMap_eq_map (fun t _ => enrichPreserve_eq_one hcat t)
  have hperm : ((ownedTxns uid s2).flatMap (enrichPreserve s2.categories)).Perm
      ((ownedTxns uid s).flatMap (enrichPreserve s.categories)) := by
    rw [he2, he1]
    exact hop.map _
  rcases hm : mapO dateTxn ((ownedTxns uid s).flatMap (enrichPreserve s.categories))
    with _ | dated
  · have hm2 : mapO dateTxn
        ((ownedTxns uid s2).flatMap (enrichPreserve s2.categories)) = none := by
      rw [mapO_eq_none] at hm ⊢
      obtain ⟨e, he, hde⟩ := hm
      exact ⟨e, hperm.mem_iff.mpr he, hde⟩
    unfold monthlyReport reportShared reportKeyed
    rw [hm, hm2]
  · rcases hm2 : mapO dateTxn
        ((ownedTxns uid s2).flatMap (enrichPreserve s2.categories)) with _ | dated2
    · exfalso
      rw [mapO_eq_none] at hm2
      obtain ⟨e, he, hde⟩ := hm2
      have h3 : mapO dateTxn
          ((ownedTxns uid s).flatMap (enrichPreserve s.categories)) = none :=
        mapO_eq_none.mpr ⟨e, hperm.mem_iff.mp he, hde⟩
      rw [hm] at h3
      exact Option.noConfusion h3
    · have hdperm : dated2.Perm dated := mapO_perm_some hperm hm2 hm
      have hpw1 : (List.insertionSort TxnLe dated).Pairwise TxnLt :=
        pairwise_txnLt (dated_ids_nodup hm hcat hnd)
      have hpw2 : (List.insertionSort TxnLe dated2).Pairwise TxnLt :=
        pairwise_txnLt (dated_ids_nodup hm2 hcat2 hnd2)
      have hsp : (List.insertionSort TxnLe dated2).Perm
          (List.insertionSort TxnLe dated) :=
        ((List.perm_insertionSort TxnLe dated2).trans hdperm).trans
          (List.perm_insertionSort TxnLe dated).symm
      have hseq : List.insertionSort TxnLe dated2 = List.insertionSort TxnLe dated :=
        List.eq_of_perm_of_sorted hsp hpw2 hpw1
      unfold monthlyReport reportShared reportKeyed
      rw [hm, hm2]
      simp only [Option.map_some']
      rw [hseq]

/-- Witness for C7: permuting the example store's records leaves the
report unchanged. -/
theorem c7_determinism_witness :
    monthlyReport "A" exStoreP = monthlyReport "A" exStore :=
  c7_determinism "A" exStore exStoreP (by decide) (by decide) (by decide) (by decide)

/-- The specification's worked example, evaluated end to end: two
summaries with "Jan 2024" before "Dec 2023"; December lists the
expense of 300 (category "Uncategorized") before the income of 1500
("Salary"), with totals 1500/300 and net 1200. -/
theorem spec_example_report :
    monthlyReport "A" exStore = some exReport ∧
    exReport.map (fun ms => ms.month) = ["Jan 2024", "Dec 2023"] ∧
    exReport.map (fun ms => (ms.totalIncome, ms.totalExpense, ms.net)) =
      [(0, 50, -50), (1500, 300, 1200)] ∧
    exReport.map (fun ms => ms.transactions.map (fun x => (x.txn.id, x.category.name))) =
      [[(3, "Toys")], [(2, "Uncategorized"), (1, "Salary")]] :=
  ⟨by decide, by decide, by decide, by decide⟩

/-- Divergence of the two revisions in the repository: the plain
`$unwind` of src/backend/src/routes/transaction.js drops the
December expense, whose category reference is null, while the
part_002 revision keeps it with the placeholder. -/
theorem monthlyReportPlain_drops_uncategorized :
    (monthlyReportPlain "A" exStore).map
        (fun r => r.map (fun ms => ms.transactions.map (fun x => x.txn.id))) =
      some [[3], [1]] ∧
    (monthlyReport "A" exStore).map
        (fun r => r.map (fun ms => ms.transactions.map (fun x => x.txn.id))) =
      some [[3], [2, 1]] :=
  ⟨by decide, by decide⟩

end FinSight
